import Mathlib

/-!
Verification of the BungholeAudio driver core
(src/driver/BungholeAudio/BungholeAudioDriver.c).

The C source is shallowly embedded: the SPSC ring buffer is a record of a
frame-indexed store together with 64-bit head/tail counters (kept as
unbounded naturals; both counters start at 0 and only ever grow, so the
2^64 wraparound of the C type is unreachable in any execution the claims
range over), the framed wire protocol is a function on byte lists, the
sample clock is integer arithmetic exactly as in the C, and the float
arithmetic of the codec volume stage is modelled exactly over the
rationals (counterexamples are taken at inputs where 32-bit float
arithmetic is exact).  Frames are kept abstract: the C buffer
`float samples[RING_CAPACITY * NUM_CHANNELS]` is only ever copied at
whole-frame granularity, so a frame is a type parameter with a zero
element (the all-zero frame written by memset).
-/

namespace Bunghole

set_option linter.unusedSectionVars false

/-! Compile-time constants, BungholeAudioDriver.c lines 54-74. -/

def SAMPLE_RATE : Nat := 48000
def NUM_CHANNELS : Nat := 2
def RING_CAPACITY : Nat := 8192
def OPUS_FRAME_SIZE : Nat := 960
def OPUS_MAX_PACKET : Nat := 1500
def IO_BUFFER_FRAMES : Nat := 512
def CLOCK_PERIOD_FRAMES : Nat := 480

/-! Object ids, lines 80-88. -/

def kObjectID_OutputDevice : Nat := 2
def kObjectID_InputDevice : Nat := 3

/-- Four-char codes of the two realtime IO operations the driver handles.
These come from the host plug-in ABI header (AudioServerPlugIn.h), not from
the repository source: 0x776D6978 is the code wmix (write-mix) and
0x72656164 is the code read (read-input).  The claims only depend on the
two values being distinct. -/
def kAudioServerPlugInIOOperationWriteMix : Nat := 0x776D6978

def kAudioServerPlugInIOOperationReadInput : Nat := 0x72656164

def kAudioHardwareNoError : Int := 0

/-! The lock-free SPSC ring buffer, lines 94-148.  The store maps a slot
index (a frame index below RING_CAPACITY) to the frame held there; the C
code addresses the same slots as float offsets idx * NUM_CHANNELS. -/

structure RingBuffer (α : Type) where
  samples : Nat → α
  head : Nat
  tail : Nat

variable {α : Type} [Zero α]

/-- Model of one memcpy of a list of whole frames into consecutive slots
starting at slot start. -/
def copySlots (f : Nat → α) (start : Nat) (xs : List α) : Nat → α :=
  fun j => if start ≤ j ∧ j < start + xs.length then xs.getD (j - start) 0 else f j

/-- Model of one memcpy of n consecutive slots out of the store, starting
at slot start. -/
def readSlots (f : Nat → α) (start n : Nat) : List α :=
  (List.range n).map (fun i => f (start + i))

/-- ring_init, lines 100-104: zero the store, zero both counters. -/
def ring_init : RingBuffer α :=
  { samples := fun _ => 0, head := 0, tail := 0 }

/-- ring_available, lines 106-110. -/
def ring_available (rb : RingBuffer α) : Nat :=
  rb.head - rb.tail

/-- The two memcpys of ring_write (lines 120-126): the run up to the end of
the backing array, then the wrapped run from slot 0. -/
def writeSamples (f : Nat → α) (h : Nat) (src : List α) (count : Nat) : Nat → α :=
  let idx := h % RING_CAPACITY
  let first := RING_CAPACITY - idx
  let first' := if first > count then count else first
  let s1 := copySlots f idx (src.take first')
  if count > first' then copySlots s1 0 ((src.drop first').take (count - first')) else s1

/-- ring_write, lines 113-129.  Copies up to count frames of src into the
ring at head mod RING_CAPACITY, wrapping at the end, then advances head by
the accepted count, which is returned. -/
def ring_write (rb : RingBuffer α) (src : List α) (count : Nat) : RingBuffer α × Nat :=
  let h := rb.head
  let t := rb.tail
  let free := RING_CAPACITY - (h - t)
  let count' := if count > free then free else count
  if count' = 0 then (rb, 0)
  else ({ samples := writeSamples rb.samples h src count', head := h + count', tail := t }, count')

/-- The two memcpys of ring_read (lines 139-145), assembled into the list
of frames delivered to dst. -/
def readSlice (f : Nat → α) (t : Nat) (count : Nat) : List α :=
  let idx := t % RING_CAPACITY
  let first := RING_CAPACITY - idx
  let first' := if first > count then count else first
  readSlots f idx first' ++ (if count > first' then readSlots f 0 (count - first') else [])

/-- ring_read, lines 132-148.  Copies up to count frames out of the ring at
tail mod RING_CAPACITY, advances tail by the delivered count; returns the
delivered frames and their number. -/
def ring_read (rb : RingBuffer α) (count : Nat) : RingBuffer α × List α × Nat :=
  let h := rb.head
  let t := rb.tail
  let avail := h - t
  let count' := if count > avail then avail else count
  if count' = 0 then (rb, [], 0)
  else ({ samples := rb.samples, head := h, tail := t + count' }, readSlice rb.samples t count', count')

/-- Abstract queue contents of a ring: the frames at logical positions
tail, tail+1, ..., head-1, read through the mod-capacity slot map. -/
def contents (rb : RingBuffer α) : List α :=
  (List.range (rb.head - rb.tail)).map (fun i => rb.samples ((rb.tail + i) % RING_CAPACITY))

lemma RING_CAPACITY_pos : 0 < RING_CAPACITY := by decide

/-- The C idiom if (count > free) count = free computes the minimum. -/
lemma cap_eq_min (a b : Nat) : (if a > b then b else a) = min a b := by
  rcases le_or_lt a b with h | h
  · simp [Nat.not_lt.mpr h, Nat.min_eq_left h]
  · simp [h, Nat.min_eq_right h.le]

lemma ring_write_ret (rb : RingBuffer α) (src : List α) (count : Nat) :
    (ring_write rb src count).2 = min count (RING_CAPACITY - (rb.head - rb.tail)) := by
  simp only [ring_write, cap_eq_min]
  split <;> rename_i hc <;> simp <;> omega

lemma ring_write_head (rb : RingBuffer α) (src : List α) (count : Nat) :
    (ring_write rb src count).1.head = rb.head + (ring_write rb src count).2 := by
  simp only [ring_write, cap_eq_min]
  split <;> simp

lemma ring_write_tail (rb : RingBuffer α) (src : List α) (count : Nat) :
    (ring_write rb src count).1.tail = rb.tail := by
  simp only [ring_write, cap_eq_min]
  split <;> simp

lemma ring_read_ret (rb : RingBuffer α) (count : Nat) :
    (ring_read rb count).2.2 = min count (rb.head - rb.tail) := by
  simp only [ring_read, cap_eq_min]
  split <;> rename_i hc <;> simp <;> omega

lemma ring_read_head (rb : RingBuffer α) (count : Nat) :
    (ring_read rb count).1.head = rb.head := by
  simp only [ring_read, cap_eq_min]
  split <;> simp

lemma ring_read_tail (rb : RingBuffer α) (count : Nat) :
    (ring_read rb count).1.tail = rb.tail + (ring_read rb count).2.2 := by
  simp only [ring_read, cap_eq_min]
  split <;> rename_i hc <;> simp <;> omega

lemma ring_read_samples (rb : RingBuffer α) (count : Nat) :
    (ring_read rb count).1.samples = rb.samples := by
  simp only [ring_read, cap_eq_min]
  split <;> simp

lemma copySlots_in (f : Nat → α) (start : Nat) (xs : List α) {j : Nat}
    (h1 : start ≤ j) (h2 : j < start + xs.length) :
    copySlots f start xs j = xs.getD (j - start) 0 := by
  simp [copySlots, h1, h2]

lemma copySlots_out (f : Nat → α) (start : Nat) (xs : List α) {j : Nat}
    (h : ¬ (start ≤ j ∧ j < start + xs.length)) :
    copySlots f start xs j = f j := by
  simp only [copySlots, if_neg h]

lemma readSlots_length (f : Nat → α) (start n : Nat) : (readSlots f start n).length = n := by
  simp [readSlots]

lemma readSlots_getElem (f : Nat → α) (start n : Nat) {i : Nat} (hi : i < n) :
    (readSlots f start n).getD i 0 = f (start + i) := by
  simp [readSlots, List.getD_eq_getElem, hi]

/-- Two positions inside one capacity-sized window of the unbounded index
space that collide modulo the capacity are equal. -/
lemma mod_eq_window {t x y : Nat} (hx1 : t ≤ x) (hx2 : x < t + RING_CAPACITY)
    (hy1 : t ≤ y) (hy2 : y < t + RING_CAPACITY)
    (h : x % RING_CAPACITY = y % RING_CAPACITY) : x = y := by
  rcases le_total x y with hle | hle
  · have hdvd : RING_CAPACITY ∣ y - x := (Nat.modEq_iff_dvd' hle).mp h
    have := Nat.eq_zero_of_dvd_of_lt hdvd
    omega
  · have hdvd : RING_CAPACITY ∣ x - y := (Nat.modEq_iff_dvd' hle).mp h.symm
    have := Nat.eq_zero_of_dvd_of_lt hdvd
    omega

lemma add_mod_eq (h i : Nat) :
    (h + i) % RING_CAPACITY = (h % RING_CAPACITY + i) % RING_CAPACITY := by
  conv_lhs => rw [← Nat.div_add_mod h RING_CAPACITY, Nat.add_assoc, Nat.mul_add_mod]

lemma add_mod_of_lt {h i : Nat} (hi : h % RING_CAPACITY + i < RING_CAPACITY) :
    (h + i) % RING_CAPACITY = h % RING_CAPACITY + i := by
  rw [add_mod_eq, Nat.mod_eq_of_lt hi]

/-- Every slot the two memcpys of a write touch is the slot of one of the
count accepted frames: writing then reading slot (head + i) mod capacity
yields frame i of the source. -/
lemma writeSamples_written (f : Nat → α) (hd : Nat) (src : List α) {w : Nat}
    (hwC : w ≤ RING_CAPACITY) (hws : w ≤ src.length) {i : Nat} (hi : i < w) :
    writeSamples f hd src w ((hd + i) % RING_CAPACITY) = src.getD i 0 := by
  have hidx : hd % RING_CAPACITY < RING_CAPACITY := Nat.mod_lt _ RING_CAPACITY_pos
  simp only [writeSamples, cap_eq_min]
  set idx := hd % RING_CAPACITY with hidxdef
  set first' := min (RING_CAPACITY - idx) w with hfirst
  have hf1 : first' ≤ RING_CAPACITY - idx := min_le_left _ _
  have hf2 : first' ≤ w := min_le_right _ _
  have hlen1 : (src.take first').length = first' := by
    simp [List.length_take]; omega
  rcases Nat.lt_or_ge i first' with hcase | hcase
  · -- the frame lands in the first memcpy
    have hj : (hd + i) % RING_CAPACITY = idx + i := add_mod_of_lt (by omega)
    rw [hj]
    have hs1 : copySlots f idx (src.take first') (idx + i) = src.getD i 0 := by
      rw [copySlots_in f idx _ (Nat.le_add_right _ _) (by omega)]
      rw [Nat.add_sub_cancel_left]
      rw [List.getD_eq_getElem _ _ (by omega), List.getD_eq_getElem _ _ (by omega)]
      simp [List.getElem_take]
    split
    · rename_i hw2
      have hfc : first' = RING_CAPACITY - idx := by omega
      rw [copySlots_out]
      · exact hs1
      · have : ((src.drop first').take (w - first')).length ≤ w - first' := by
          simp [List.length_take]
        omega
    · exact hs1
  · -- the frame lands in the wrapped second memcpy
    have hw2 : first' < w := by omega
    have hfc : first' = RING_CAPACITY - idx := by omega
    have hj : (hd + i) % RING_CAPACITY = i - first' := by
      rw [add_mod_eq]
      have : idx + i = RING_CAPACITY + (i - first') := by omega
      rw [← hidxdef, this, Nat.add_mod_left, Nat.mod_eq_of_lt (by omega)]
    rw [hj, if_pos hw2]
    have hlen2 : ((src.drop first').take (w - first')).length = w - first' := by
      simp [List.length_take, List.length_drop]; omega
    rw [copySlots_in _ 0 _ (Nat.zero_le _) (by omega)]
    rw [Nat.sub_zero]
    rw [List.getD_eq_getElem _ _ (by omega), List.getD_eq_getElem _ _ (by omega)]
    simp only [List.getElem_take, List.getElem_drop]
    congr 1
    omega

/-- Slots holding the live frames of the ring (positions tail..head-1) are
untouched by a write of at most the free count. -/
lemma writeSamples_preserved (f : Nat → α) {hd t : Nat} (src : List α) {w : Nat}
    (ht : t ≤ hd) (hh : hd ≤ t + RING_CAPACITY) (hw : w ≤ RING_CAPACITY - (hd - t))
    {i : Nat} (hi : i < hd - t) :
    writeSamples f hd src w ((t + i) % RING_CAPACITY) = f ((t + i) % RING_CAPACITY) := by
  have hidx : hd % RING_CAPACITY < RING_CAPACITY := Nat.mod_lt _ RING_CAPACITY_pos
  have hjC : (t + i) % RING_CAPACITY < RING_CAPACITY := Nat.mod_lt _ RING_CAPACITY_pos
  -- no accepted-frame slot collides with a live-frame slot
  have hdisj : ∀ m, m < w → (hd + m) % RING_CAPACITY ≠ (t + i) % RING_CAPACITY := by
    intro m hm heq
    have hx : t + i = hd + m :=
      mod_eq_window (Nat.le_add_right _ _) (by omega) (by omega) (by omega) heq.symm
    omega
  simp only [writeSamples, cap_eq_min]
  set idx := hd % RING_CAPACITY with hidxdef
  set first' := min (RING_CAPACITY - idx) w with hfirst
  have hf1 : first' ≤ RING_CAPACITY - idx := min_le_left _ _
  have hf2 : first' ≤ w := min_le_right _ _
  set j := (t + i) % RING_CAPACITY with hjdef
  have hs1 : copySlots f idx (src.take first') j = f j := by
    apply copySlots_out
    rintro ⟨hj1, hj2⟩
    have hlen1 : (src.take first').length ≤ first' := by
      simp [List.length_take]
    refine hdisj (j - idx) (by omega) ?_
    have : (hd + (j - idx)) % RING_CAPACITY = idx + (j - idx) := add_mod_of_lt (by omega)
    omega
  split
  · rename_i hw2
    have hfc : first' = RING_CAPACITY - idx := by omega
    rw [copySlots_out]
    · exact hs1
    · rintro ⟨hj1, hj2⟩
      have hlen2 : ((src.drop first').take (w - first')).length ≤ w - first' := by
        simp [List.length_take]
      refine hdisj (first' + j) (by omega) ?_
      rw [add_mod_eq, ← hidxdef]
      have : idx + (first' + j) = RING_CAPACITY + j := by omega
      rw [this, Nat.add_mod_left, Nat.mod_eq_of_lt (by omega)]
  · exact hs1

lemma contents_length (rb : RingBuffer α) : (contents rb).length = rb.head - rb.tail := by
  simp [contents]

/-- Functional correctness of ring_write at the queue level: the accepted
prefix of the source is appended to the queue contents. -/
theorem ring_write_contents (rb : RingBuffer α) (src : List α) (k : Nat)
    (ht : rb.tail ≤ rb.head) (hh : rb.head ≤ rb.tail + RING_CAPACITY) (hk : k ≤ src.length) :
    contents (ring_write rb src k).1 = contents rb ++ src.take (ring_write rb src k).2 := by
  simp only [ring_write, cap_eq_min]
  split
  · rename_i h0
    simp
  · rename_i h0
    set w := min k (RING_CAPACITY - (rb.head - rb.tail)) with hwdef
    have hwfree : w ≤ RING_CAPACITY - (rb.head - rb.tail) := min_le_right _ _
    have hwC : w ≤ RING_CAPACITY := by omega
    have hwsrc : w ≤ src.length := le_trans (min_le_left _ _) hk
    have hlenc : (contents rb).length = rb.head - rb.tail := contents_length rb
    apply List.ext_getElem
    · simp only [contents, List.length_map, List.length_range, List.length_append,
        List.length_take]
      omega
    · intro n h1 h2
      have hn' : n < (rb.head - rb.tail) + w := by
        have := h1
        simp only [contents, List.length_map, List.length_range] at this
        omega
      simp only [contents, List.getElem_map, List.getElem_range]
      rcases Nat.lt_or_ge n (rb.head - rb.tail) with hn | hn
      · rw [List.getElem_append_left (by simpa using hn)]
        simp only [List.getElem_map, List.getElem_range]
        exact writeSamples_preserved rb.samples src ht hh hwfree hn
      · rw [List.getElem_append_right (by simpa using hn)]
        have hi : n - (rb.head - rb.tail) < w := by omega
        have hsplit : rb.tail + n = rb.head + (n - (rb.head - rb.tail)) := by omega
        rw [hsplit]
        rw [writeSamples_written rb.samples rb.head src hwC hwsrc hi]
        rw [List.getD_eq_getElem _ _ (by omega)]
        simp only [List.getElem_take, List.length_map, List.length_range]

lemma readSlice_eq (f : Nat → α) (t w : Nat) (hwC : w ≤ RING_CAPACITY) :
    readSlice f t w = (List.range w).map (fun i => f ((t + i) % RING_CAPACITY)) := by
  have hidx : t % RING_CAPACITY < RING_CAPACITY := Nat.mod_lt _ RING_CAPACITY_pos
  apply List.ext_getElem
  · simp only [readSlice, cap_eq_min, List.length_append]
    split <;> simp only [readSlots_length, List.length_map, List.length_range,
      List.length_nil] <;> omega
  · intro n h1 h2
    have hn : n < w := by simpa using h2
    simp only [readSlice, cap_eq_min] at h1 ⊢
    set idx := t % RING_CAPACITY with hidxdef
    set first' := min (RING_CAPACITY - idx) w with hfirst
    have hf1 : first' ≤ RING_CAPACITY - idx := min_le_left _ _
    have hf2 : first' ≤ w := min_le_right _ _
    simp only [List.getElem_map, List.getElem_range]
    rcases Nat.lt_or_ge n first' with hcase | hcase
    · rw [List.getElem_append_left (by simp only [readSlots_length]; omega)]
      have hj : (t + n) % RING_CAPACITY = idx + n := add_mod_of_lt (by omega)
      simp [readSlots, hj]
    · have hw2 : first' < w := by omega
      have hfc : first' = RING_CAPACITY - idx := by omega
      rw [List.getElem_append_right (by simp only [readSlots_length]; omega)]
      have hj : (t + n) % RING_CAPACITY = n - first' := by
        rw [add_mod_eq, ← hidxdef]
        have : idx + n = RING_CAPACITY + (n - first') := by omega
        rw [this, Nat.add_mod_left, Nat.mod_eq_of_lt (by omega)]
      rw [hj]
      simp only [if_pos hw2]
      simp [readSlots, readSlots_length]

/-- Functional correctness of ring_read at the queue level: the delivered
frames are the front of the queue contents. -/
theorem ring_read_dst (rb : RingBuffer α) (k : Nat)
    (ht : rb.tail ≤ rb.head) (hh : rb.head ≤ rb.tail + RING_CAPACITY) :
    (ring_read rb k).2.1 = (contents rb).take (ring_read rb k).2.2 := by
  simp only [ring_read, cap_eq_min]
  split
  · simp
  · rename_i h0
    set r := min k (rb.head - rb.tail) with hrdef
    have hr1 : r ≤ rb.head - rb.tail := min_le_right _ _
    rw [readSlice_eq _ _ _ (by omega)]
    simp only [contents]
    rw [← List.map_take, List.take_range]
    have : min r (rb.head - rb.tail) = r := by omega
    rw [this]

/-- ring_read leaves the queue contents minus the delivered front. -/
theorem ring_read_contents (rb : RingBuffer α) (k : Nat)
    (ht : rb.tail ≤ rb.head) :
    contents (ring_read rb k).1 = (contents rb).drop (ring_read rb k).2.2 := by
  simp only [ring_read, cap_eq_min]
  split
  · simp
  · rename_i h0
    set r := min k (rb.head - rb.tail) with hrdef
    have hr1 : r ≤ rb.head - rb.tail := min_le_right _ _
    apply List.ext_getElem
    · simp [contents]
      omega
    · intro n h1 h2
      simp only [contents, List.getElem_map, List.getElem_range, List.getElem_drop]
      rw [Nat.add_assoc]

/-- The documented ring invariant: tail ≤ head ≤ tail + capacity. -/
def ringInv (rb : RingBuffer α) : Prop :=
  rb.tail ≤ rb.head ∧ rb.head ≤ rb.tail + RING_CAPACITY

lemma ring_write_zero (rb : RingBuffer α) (src : List α) :
    ring_write rb src 0 = (rb, 0) := by
  simp [ring_write]

/-- One driver-visible ring operation.  The C call sites always pass the
whole buffer: the realtime handler writes ioMainBuffer with count ioSize
equal to its frame count, and the ingress worker writes the decoded
buffer with its sample count. -/
inductive RingOp (α : Type) where
  | write (src : List α) : RingOp α
  | read (k : Nat) : RingOp α

/-- Runs a sequence of ring operations, accumulating the frames each write
actually accepted (ws) and the frames each read delivered (rs). -/
def runFrom (rb : RingBuffer α) (ws rs : List α) :
    List (RingOp α) → RingBuffer α × List α × List α
  | [] => (rb, ws, rs)
  | RingOp.write src :: ops =>
      let p := ring_write rb src src.length
      runFrom p.1 (ws ++ src.take p.2) rs ops
  | RingOp.read k :: ops =>
      let p := ring_read rb k
      runFrom p.1 ws (rs ++ p.2.1) ops

def run (ops : List (RingOp α)) : RingBuffer α × List α × List α :=
  runFrom ring_init [] [] ops

theorem runFrom_spec (ops : List (RingOp α)) :
    ∀ (rb : RingBuffer α) (ws rs : List α),
      rb.tail ≤ rb.head → rb.head ≤ rb.tail + RING_CAPACITY → ws = rs ++ contents rb →
      (runFrom rb ws rs ops).1.tail ≤ (runFrom rb ws rs ops).1.head ∧
      (runFrom rb ws rs ops).1.head ≤ (runFrom rb ws rs ops).1.tail + RING_CAPACITY ∧
      (runFrom rb ws rs ops).2.1 = (runFrom rb ws rs ops).2.2 ++ contents (runFrom rb ws rs ops).1 := by
  induction ops with
  | nil =>
    intro rb ws rs h1 h2 h3
    exact ⟨h1, h2, h3⟩
  | cons op ops ih =>
    intro rb ws rs h1 h2 h3
    cases op with
    | write src =>
      simp only [runFrom]
      have hret := ring_write_ret rb src src.length
      have hhead := ring_write_head rb src src.length
      have htail := ring_write_tail rb src src.length
      apply ih
      · omega
      · have : (ring_write rb src src.length).2 ≤
            RING_CAPACITY - (rb.head - rb.tail) := by omega
        omega
      · rw [ring_write_contents rb src src.length h1 h2 (le_refl _), h3,
          List.append_assoc]
    | read k =>
      simp only [runFrom]
      have hret := ring_read_ret rb k
      have hhead := ring_read_head rb k
      have htail := ring_read_tail rb k
      apply ih
      · omega
      · omega
      · rw [ring_read_contents rb k h1, ring_read_dst rb k h1 h2, h3,
          List.append_assoc, List.take_append_drop]

lemma contents_init : contents (ring_init (α := α)) = [] := by
  simp [contents, ring_init]

/-- C1: ring_write accepts and copies exactly min(count, free) frames and
returns that number; writing 8193 frames into an empty capacity-8192 ring
returns 8192 and leaves head - tail = 8192, after which a 1-frame write
returns 0; a write with count 0 returns 0 and does not modify the ring. -/
theorem ring_write_min_free_spec (rb : RingBuffer Int) (src : List Int) (k : Nat)
    (ht : rb.tail ≤ rb.head) (hh : rb.head - rb.tail ≤ RING_CAPACITY)
    (hk : k ≤ src.length) :
    (ring_write rb src k).2 = min k (RING_CAPACITY - (rb.head - rb.tail)) ∧
    contents (ring_write rb src k).1 = contents rb ++ src.take (ring_write rb src k).2 ∧
    (ring_write rb src k).1.head = rb.head + (ring_write rb src k).2 ∧
    (ring_write rb src k).1.tail = rb.tail ∧
    (∀ big : List Int, 8193 ≤ big.length →
      (ring_write (ring_init (α := Int)) big 8193).2 = 8192 ∧
      (ring_write (ring_init (α := Int)) big 8193).1.head -
        (ring_write (ring_init (α := Int)) big 8193).1.tail = 8192 ∧
      (∀ one : List Int,
        (ring_write (ring_write (ring_init (α := Int)) big 8193).1 one 1).2 = 0)) ∧
    (∀ (rb2 : RingBuffer Int) (src2 : List Int), ring_write rb2 src2 0 = (rb2, 0)) := by
  have hh' : rb.head ≤ rb.tail + RING_CAPACITY := by omega
  refine ⟨ring_write_ret rb src k, ring_write_contents rb src k ht hh' hk,
    ring_write_head rb src k, ring_write_tail rb src k, ?_, fun rb2 src2 => ring_write_zero rb2 src2⟩
  intro big hbig
  have h2 : (ring_write (ring_init (α := Int)) big 8193).2 = 8192 := by
    rw [ring_write_ret]
    simp [ring_init, RING_CAPACITY]
  have hhd := ring_write_head (ring_init (α := Int)) big 8193
  have htl := ring_write_tail (ring_init (α := Int)) big 8193
  have hi1 : (ring_init (α := Int)).head = 0 := rfl
  have hi2 : (ring_init (α := Int)).tail = 0 := rfl
  have e1 : (ring_write (ring_init (α := Int)) big 8193).1.head = 8192 := by omega
  have e2 : (ring_write (ring_init (α := Int)) big 8193).1.tail = 0 := by omega
  refine ⟨h2, by omega, ?_⟩
  intro one
  rw [ring_write_ret, e1, e2]
  decide

/-- Closed witness for the hypotheses of ring_write_min_free_spec. -/
theorem ring_write_min_free_spec_witness :
    ((ring_init (α := Int)).tail ≤ (ring_init (α := Int)).head ∧
      (ring_init (α := Int)).head - (ring_init (α := Int)).tail ≤ RING_CAPACITY ∧
      1 ≤ ([0, 0] : List Int).length) ∧
    (ring_write (ring_init (α := Int)) [0, 0] 1).2 =
      min 1 (RING_CAPACITY - ((ring_init (α := Int)).head - (ring_init (α := Int)).tail)) :=
  ⟨⟨by decide, by decide, by decide⟩,
    (ring_write_min_free_spec (ring_init (α := Int)) [0, 0] 1 (by decide) (by decide)
      (by decide)).1⟩

/-- C2: the invariant tail ≤ head ≤ tail + capacity holds after ring_init
and is preserved by every ring_write and ring_read, with head and tail
each monotonically non-decreasing. -/
theorem ring_invariant_preserved :
    ringInv (ring_init (α := Int)) ∧
    (∀ (rb : RingBuffer Int) (src : List Int) (k : Nat), ringInv rb →
      ringInv (ring_write rb src k).1 ∧
      rb.head ≤ (ring_write rb src k).1.head ∧
      rb.tail ≤ (ring_write rb src k).1.tail) ∧
    (∀ (rb : RingBuffer Int) (k : Nat), ringInv rb →
      ringInv (ring_read rb k).1 ∧
      rb.head ≤ (ring_read rb k).1.head ∧
      rb.tail ≤ (ring_read rb k).1.tail) := by
  refine ⟨⟨by decide, by decide⟩, ?_, ?_⟩
  · intro rb src k hinv
    obtain ⟨h1, h2⟩ := hinv
    have hret := ring_write_ret rb src k
    have hhead := ring_write_head rb src k
    have htail := ring_write_tail rb src k
    refine ⟨⟨by omega, by omega⟩, by omega, by omega⟩
  · intro rb k hinv
    obtain ⟨h1, h2⟩ := hinv
    have hret := ring_read_ret rb k
    have hhead := ring_read_head rb k
    have htail := ring_read_tail rb k
    refine ⟨⟨by omega, by omega⟩, by omega, by omega⟩

/-- Closed witness for the hypothesis of ring_invariant_preserved. -/
theorem ring_invariant_preserved_witness :
    ringInv (ring_init (α := Int)) ∧
    ringInv (ring_write (ring_init (α := Int)) [0] 1).1 :=
  ⟨⟨by decide, by decide⟩,
    ((ring_invariant_preserved.2.1) (ring_init (α := Int)) [0] 1 ⟨by decide, by decide⟩).1⟩

/-- C3: over any sequence of writes and reads on one ring, the
concatenation of the frames delivered by the reads followed by the frames
still queued equals the concatenation of the frames accepted by the
writes: reads deliver accepted frames in FIFO order, bit-exact, with no
duplication, loss occurring only as rejection at write time. -/
theorem ring_fifo_reads_prefix_of_writes (ops : List (RingOp Int)) :
    (run ops).2.1 = (run ops).2.2 ++ contents (run ops).1 ∧
    ∃ queued : List Int, (run ops).2.2 ++ queued = (run ops).2.1 := by
  have h := runFrom_spec (α := Int) ops ring_init [] [] (by decide) (by decide)
    (by simp [contents_init])
  exact ⟨h.2.2, contents (run ops).1, h.2.2.symm⟩

/-! The realtime IO handler, driver_DoIOOperation, lines 1394-1412.  The
driver state the handler touches is the pair of rings; ioMainBuffer is
modelled as the list of its ioSize frames. -/

structure DriverIOState (α : Type) where
  outputRing : RingBuffer α
  inputRing : RingBuffer α

/-- driver_DoIOOperation: on (output device, write-mix) it copies the mix
buffer into the output ring; on (input device, read-input) it reads from
the input ring and pads the shortfall with zero frames (the memset on
line 1407); every other (device, operation) pair falls through and
returns success with nothing touched.  Result: (new state, buffer
contents after the call, returned OSStatus). -/
def driver_DoIOOperation (st : DriverIOState α) (id opID ioSize : Nat)
    (ioMainBuffer : List α) : DriverIOState α × List α × Int :=
  if id = kObjectID_OutputDevice ∧ opID = kAudioServerPlugInIOOperationWriteMix then
    let p := ring_write st.outputRing ioMainBuffer ioSize
    ({ st with outputRing := p.1 }, ioMainBuffer, kAudioHardwareNoError)
  else if id = kObjectID_InputDevice ∧ opID = kAudioServerPlugInIOOperationReadInput then
    let p := ring_read st.inputRing ioSize
    ({ st with inputRing := p.1 },
      p.2.1 ++ List.replicate (ioSize - p.2.2) 0, kAudioHardwareNoError)
  else (st, ioMainBuffer, kAudioHardwareNoError)

/-- C4: a read-input IO operation on the input device returns success and
delivers the frames the ingress ring yields followed by zero frames up to
ioSize; with the ring empty the whole buffer is zero frames. -/
theorem do_io_read_input_underflow (st : DriverIOState Int) (ioSize : Nat)
    (buf : List Int)
    (h1 : st.inputRing.tail ≤ st.inputRing.head)
    (h2 : st.inputRing.head ≤ st.inputRing.tail + RING_CAPACITY) :
    (driver_DoIOOperation st kObjectID_InputDevice
        kAudioServerPlugInIOOperationReadInput ioSize buf).2.2 = kAudioHardwareNoError ∧
    (driver_DoIOOperation st kObjectID_InputDevice
        kAudioServerPlugInIOOperationReadInput ioSize buf).2.1 =
      (contents st.inputRing).take (min ioSize (st.inputRing.head - st.inputRing.tail)) ++
        List.replicate (ioSize - min ioSize (st.inputRing.head - st.inputRing.tail)) 0 ∧
    (driver_DoIOOperation st kObjectID_InputDevice
        kAudioServerPlugInIOOperationReadInput ioSize buf).2.1.length = ioSize ∧
    (st.inputRing.head = st.inputRing.tail →
      (driver_DoIOOperation st kObjectID_InputDevice
          kAudioServerPlugInIOOperationReadInput ioSize buf).2.1 =
        List.replicate ioSize (0 : Int)) := by
  have hne : ¬(kObjectID_InputDevice = kObjectID_OutputDevice ∧
      kAudioServerPlugInIOOperationReadInput = kAudioServerPlugInIOOperationWriteMix) := by
    decide
  have hret := ring_read_ret st.inputRing ioSize
  have hdst := ring_read_dst st.inputRing ioSize h1 h2
  have hclen := contents_length st.inputRing
  rw [hret] at hdst
  simp only [driver_DoIOOperation, if_neg hne, and_self, if_true, hdst, hret]
  refine ⟨trivial, trivial, ?_, ?_⟩
  · simp only [List.length_append, List.length_take, List.length_replicate, hclen]
    omega
  · intro hempty
    rw [hempty]
    simp

/-- Closed witness for the hypotheses of do_io_read_input_underflow. -/
theorem do_io_read_input_underflow_witness :
    ((ring_init (α := Int)).tail ≤ (ring_init (α := Int)).head ∧
      (ring_init (α := Int)).head ≤ (ring_init (α := Int)).tail + RING_CAPACITY) ∧
    (driver_DoIOOperation (DriverIOState.mk (ring_init (α := Int)) (ring_init (α := Int)))
        kObjectID_InputDevice kAudioServerPlugInIOOperationReadInput 512 []).2.2 =
      kAudioHardwareNoError :=
  ⟨⟨by decide, by decide⟩,
    (do_io_read_input_underflow
      (DriverIOState.mk (ring_init (α := Int)) (ring_init (α := Int))) 512 []
      (by decide) (by decide)).1⟩

/-- C10: every (device, operation) pair other than (output, write-mix) and
(input, read-input) returns success, leaves both rings untouched and does
not write the buffer. -/
theorem do_io_other_ops_noop (st : DriverIOState Int) (id opID ioSize : Nat)
    (buf : List Int)
    (ho : ¬(id = kObjectID_OutputDevice ∧ opID = kAudioServerPlugInIOOperationWriteMix))
    (hi : ¬(id = kObjectID_InputDevice ∧ opID = kAudioServerPlugInIOOperationReadInput)) :
    driver_DoIOOperation st id opID ioSize buf = (st, buf, kAudioHardwareNoError) := by
  simp only [driver_DoIOOperation, if_neg ho, if_neg hi]

/-- Closed witness for the hypotheses of do_io_other_ops_noop: read-input
addressed to the output device is a no-op. -/
theorem do_io_other_ops_noop_witness :
    (¬(kObjectID_OutputDevice = kObjectID_OutputDevice ∧
        kAudioServerPlugInIOOperationReadInput = kAudioServerPlugInIOOperationWriteMix) ∧
      ¬(kObjectID_OutputDevice = kObjectID_InputDevice ∧
        kAudioServerPlugInIOOperationReadInput = kAudioServerPlugInIOOperationReadInput)) ∧
    driver_DoIOOperation (DriverIOState.mk (ring_init (α := Int)) (ring_init (α := Int)))
        kObjectID_OutputDevice kAudioServerPlugInIOOperationReadInput 512 [] =
      (DriverIOState.mk (ring_init (α := Int)) (ring_init (α := Int)), [],
        kAudioHardwareNoError) :=
  ⟨⟨by decide, by decide⟩,
    do_io_other_ops_noop (DriverIOState.mk (ring_init (α := Int)) (ring_init (α := Int)))
      kObjectID_OutputDevice kAudioServerPlugInIOOperationReadInput 512 []
      (by decide) (by decide)⟩

/-! The sample clock, driver_GetZeroTimeStamp, lines 1339-1367. -/

/-- ns_per_period, line 1358: 480 * 10^9 / 48000 = 10^7 ns. -/
def ns_per_period : Nat := CLOCK_PERIOD_FRAMES * 1000000000 / SAMPLE_RATE

/-- driver_GetZeroTimeStamp for one device: numer/denom form the mach
timebase ratio, ticksAtZero the tick count captured by driver_StartIO,
now the current mach_absolute_time.  Returns (sample_time, host_time);
the C stores sample_time in a Float64 whose value is the integer
periods * CLOCK_PERIOD_FRAMES, exact for any realistic uptime. -/
def driver_GetZeroTimeStamp (numer denom ticksAtZero now : Nat) : Nat × Nat :=
  let elapsed := now - ticksAtZero
  let elapsed_ns := elapsed * numer / denom
  let periods := elapsed_ns / ns_per_period
  (periods * CLOCK_PERIOD_FRAMES,
    ticksAtZero + periods * ns_per_period * denom / numer)

lemma lt_div_succ_mul (X b : Nat) (hb : 0 < b) : X < (X / b + 1) * b := by
  have h1 := Nat.div_add_mod X b
  have h2 := Nat.mod_lt X hb
  calc X = b * (X / b) + X % b := h1.symm
    _ < b * (X / b) + b := by omega
    _ = (X / b + 1) * b := by ring

/-- C6: the zero timestamp names the latest elapsed period boundary:
sample_time is the floored period count times the period, host_time is
ticks_at_zero plus those periods re-expressed in host ticks (floored, so
consistent with sample_time to within one host tick); with a
nanosecond-granular timebase, queries 0 ms, 15 ms and 25 ms after start
return sample times 0, 480 and 960. -/
theorem zero_timestamp_period_boundary (numer denom ticksAtZero now : Nat)
    (hn : 0 < numer) (hd : 0 < denom) (hle : ticksAtZero ≤ now) :
    (driver_GetZeroTimeStamp numer denom ticksAtZero now).1 =
      ((now - ticksAtZero) * numer / denom / ns_per_period) * CLOCK_PERIOD_FRAMES ∧
    (driver_GetZeroTimeStamp numer denom ticksAtZero now).2 =
      ticksAtZero +
        ((now - ticksAtZero) * numer / denom / ns_per_period) * ns_per_period * denom / numer ∧
    ((driver_GetZeroTimeStamp numer denom ticksAtZero now).2 - ticksAtZero) * numer ≤
      ((now - ticksAtZero) * numer / denom / ns_per_period) * ns_per_period * denom ∧
    ((now - ticksAtZero) * numer / denom / ns_per_period) * ns_per_period * denom <
      ((driver_GetZeroTimeStamp numer denom ticksAtZero now).2 - ticksAtZero + 1) * numer ∧
    (∀ t : Nat, driver_GetZeroTimeStamp 1 1 t t = (0, t) ∧
      driver_GetZeroTimeStamp 1 1 t (t + 15000000) = (480, t + 10000000) ∧
      driver_GetZeroTimeStamp 1 1 t (t + 25000000) = (960, t + 20000000)) := by
  have hsub : (driver_GetZeroTimeStamp numer denom ticksAtZero now).2 - ticksAtZero =
      ((now - ticksAtZero) * numer / denom / ns_per_period) * ns_per_period * denom /
        numer := by
    simp only [driver_GetZeroTimeStamp, Nat.add_sub_cancel_left]
  refine ⟨rfl, rfl, ?_, ?_, ?_⟩
  · rw [hsub]
    exact Nat.div_mul_le_self _ _
  · rw [hsub]
    exact lt_div_succ_mul _ numer hn
  · intro t
    refine ⟨?_, ?_, ?_⟩ <;>
      norm_num [driver_GetZeroTimeStamp, ns_per_period, CLOCK_PERIOD_FRAMES, SAMPLE_RATE,
        Nat.add_sub_cancel_left]

/-- Closed witness for the hypotheses of zero_timestamp_period_boundary. -/
theorem zero_timestamp_period_boundary_witness :
    (0 < 1 ∧ 0 < 1 ∧ 0 ≤ 0) ∧
    (driver_GetZeroTimeStamp 1 1 0 0).1 = 0 * 1 / 1 / ns_per_period * CLOCK_PERIOD_FRAMES :=
  ⟨⟨by decide, by decide, by decide⟩,
    by simpa using (zero_timestamp_period_boundary 1 1 0 0 (by decide) (by decide)
      (by decide)).1⟩

/-! Volume control: scalar/decibel conversion (lines 268-278) and the
scalar and decibel property setters and getter (lines 1225-1234 and
1277-1291), modelled over the reals (the C computes in Float32 with
log10f and powf; the claims are stated up to the 1e-4 dB tolerance that
absorbs the float error). -/

noncomputable def VOLUME_MIN_DB : ℝ := -96

noncomputable def VOLUME_MAX_DB : ℝ := 0

/-- scalar_to_db, lines 268-273. -/
noncomputable def scalar_to_db (scalar : ℝ) : ℝ :=
  if scalar ≤ 0 then VOLUME_MIN_DB
  else
    let db := 20 * Real.logb 10 scalar
    if db < VOLUME_MIN_DB then VOLUME_MIN_DB else db

/-- db_to_scalar, lines 275-278. -/
noncomputable def db_to_scalar (db : ℝ) : ℝ :=
  if db ≤ VOLUME_MIN_DB then 0 else (10 : ℝ) ^ (db / 20)

/-- driver_SetPropertyData on the scalar volume selector, lines 1277-1284:
clamp to [0, 1] and store. -/
noncomputable def setVolumeScalar (v : ℝ) : ℝ :=
  let v1 := if v < 0 then (0 : ℝ) else v
  if v1 > 1 then 1 else v1

/-- driver_SetPropertyData on the decibel volume selector, lines
1285-1291: clamp to [VOLUME_MIN_DB, VOLUME_MAX_DB], convert, store. -/
noncomputable def setVolumeDb (db : ℝ) : ℝ :=
  let d1 := if db < VOLUME_MIN_DB then VOLUME_MIN_DB else db
  let d2 := if d1 > VOLUME_MAX_DB then VOLUME_MAX_DB else d1
  db_to_scalar d2

/-- driver_GetPropertyData on the scalar volume selector, lines 1225-1229:
the stored atomic is returned as is. -/
def getVolumeScalar (stored : ℝ) : ℝ := stored

/-- C7: set-scalar then get-scalar returns exactly v on [0, 1]; outside,
the stored value is the nearest endpoint (1.5 comes back as 1), and
set-db of -200 (below the -96 dB floor) comes back as scalar 0. -/
theorem volume_set_get_clamp (v : ℝ) (h0 : 0 ≤ v) (h1 : v ≤ 1) :
    getVolumeScalar (setVolumeScalar v) = v ∧
    (∀ w : ℝ, w < 0 → setVolumeScalar w = 0) ∧
    (∀ w : ℝ, 1 < w → setVolumeScalar w = 1) ∧
    setVolumeScalar (3 / 2) = 1 ∧
    getVolumeScalar (setVolumeDb (-200)) = 0 := by
  refine ⟨?_, ?_, ?_, ?_, ?_⟩
  · simp only [getVolumeScalar, setVolumeScalar]
    split_ifs <;> linarith
  · intro w hw
    simp only [setVolumeScalar]
    split_ifs <;> linarith
  · intro w hw
    simp only [setVolumeScalar]
    split_ifs <;> linarith
  · norm_num [setVolumeScalar]
  · norm_num [getVolumeScalar, setVolumeDb, db_to_scalar, VOLUME_MIN_DB, VOLUME_MAX_DB]

/-- Closed witness for the hypotheses of volume_set_get_clamp. -/
theorem volume_set_get_clamp_witness :
    ((0 : ℝ) ≤ 1 / 2 ∧ (1 / 2 : ℝ) ≤ 1) ∧
    getVolumeScalar (setVolumeScalar (1 / 2)) = (1 / 2 : ℝ) :=
  ⟨⟨by norm_num, by norm_num⟩,
    (volume_set_get_clamp (1 / 2) (by norm_num) (by norm_num)).1⟩

/-- C8: the decibel-to-scalar-to-decibel round trip is the identity on
[-96, 0] (exactly, in the real model, hence within the 1e-4 dB claim
tolerance), and the -96 dB boundary maps through scalar 0 exactly. -/
theorem db_scalar_roundtrip (x : ℝ) (h1 : VOLUME_MIN_DB ≤ x) (h2 : x ≤ 0) :
    |scalar_to_db (db_to_scalar x) - x| ≤ 1 / 10000 ∧
    db_to_scalar VOLUME_MIN_DB = 0 ∧
    scalar_to_db 0 = VOLUME_MIN_DB := by
  have hmin : db_to_scalar VOLUME_MIN_DB = 0 := by
    rw [db_to_scalar, if_pos le_rfl]
  have hzero : scalar_to_db 0 = VOLUME_MIN_DB := by
    rw [scalar_to_db, if_pos le_rfl]
  refine ⟨?_, hmin, hzero⟩
  rcases eq_or_lt_of_le h1 with heq | hlt
  · rw [← heq, hmin, hzero]
    simp
  · have hs : db_to_scalar x = (10 : ℝ) ^ (x / 20) := by
      rw [db_to_scalar, if_neg (not_le.mpr hlt)]
    have hpos : (0 : ℝ) < (10 : ℝ) ^ (x / 20) := Real.rpow_pos_of_pos (by norm_num) _
    have hlogb : Real.logb 10 ((10 : ℝ) ^ (x / 20)) = x / 20 :=
      Real.logb_rpow (by norm_num) (by norm_num)
    rw [hs, scalar_to_db, if_neg (not_le.mpr hpos)]
    simp only [hlogb]
    have h20 : 20 * (x / 20) = x := by ring
    rw [h20, if_neg (not_lt.mpr hlt.le)]
    simp

/-- Closed witness for the hypotheses of db_scalar_roundtrip. -/
theorem db_scalar_roundtrip_witness :
    (VOLUME_MIN_DB ≤ (0 : ℝ) ∧ (0 : ℝ) ≤ 0) ∧
    |scalar_to_db (db_to_scalar 0) - 0| ≤ 1 / 10000 :=
  ⟨⟨by norm_num [VOLUME_MIN_DB], le_rfl⟩,
    (db_scalar_roundtrip 0 (by norm_num [VOLUME_MIN_DB]) le_rfl).1⟩

/-! The framed wire protocol reader, framed_read, lines 243-262.  The
byte-stream transport is modelled as the list of bytes the looped read
calls deliver in order; exhausting the list before the header or payload
is complete is the r <= 0 failure path.  The 2-byte big-endian header
(hdr[0] << 8) | hdr[1] is b0 * 256 + b1 for the byte values b0, b1. -/

def framed_read (input : List Nat) (bufsize : Nat) : Option (Nat × List Nat) :=
  match input with
  | b0 :: b1 :: rest =>
      let len := b0 * 256 + b1
      if len = 0 ∨ len > bufsize then none
      else if rest.length < len then none
      else some (len, rest.take len)
  | _ => none

/-- C9: reading a wire frame fails exactly when the transport fails (the
stream ends early) or the parsed big-endian length is 0 or exceeds the
buffer capacity (the ingress worker passes OPUS_MAX_PACKET = 1500); for
every length in range with its payload available the read returns exactly
that length and payload; a full 1501-byte frame is rejected at capacity
1500. -/
theorem framed_read_length_check (b0 b1 : Nat) (rest : List Nat) (bufsize : Nat)
    (hb0 : b0 < 256) (hb1 : b1 < 256) :
    (framed_read (b0 :: b1 :: rest) bufsize =
      if b0 * 256 + b1 = 0 ∨ b0 * 256 + b1 > bufsize ∨ rest.length < b0 * 256 + b1
      then none else some (b0 * 256 + b1, rest.take (b0 * 256 + b1))) ∧
    (∀ (len : Nat) (payload rest2 : List Nat), 1 ≤ len → len ≤ bufsize →
      payload.length = len →
      framed_read ((len / 256) :: (len % 256) :: (payload ++ rest2)) bufsize =
        some (len, payload)) ∧
    (∀ rest3 : List Nat, framed_read (0 :: 0 :: rest3) bufsize = none) ∧
    (∀ payload rest2 : List Nat, payload.length = 1501 →
      framed_read ((1501 / 256) :: (1501 % 256) :: (payload ++ rest2)) OPUS_MAX_PACKET =
        none) ∧
    framed_read [] bufsize = none ∧
    (∀ b : Nat, framed_read [b] bufsize = none) := by
  refine ⟨?_, ?_, ?_, ?_, rfl, fun b => rfl⟩
  · simp only [framed_read]
    by_cases hA : b0 * 256 + b1 = 0 ∨ b0 * 256 + b1 > bufsize
    · rw [if_pos hA, if_pos (by tauto)]
    · rw [if_neg hA]
      by_cases hB : rest.length < b0 * 256 + b1
      · rw [if_pos hB, if_pos (by tauto)]
      · rw [if_neg hB, if_neg (by tauto)]
  · intro len payload rest2 hlen1 hlen2 hplen
    subst hplen
    simp only [framed_read]
    have hkey : payload.length / 256 * 256 + payload.length % 256 = payload.length := by
      omega
    rw [hkey]
    rw [if_neg (by omega)]
    rw [if_neg (by simp only [List.length_append]; omega)]
    rw [List.take_left]
  · intro rest3
    rfl
  · intro payload rest2 hplen
    simp only [framed_read]
    have hkey : (1501 : Nat) / 256 * 256 + 1501 % 256 = 1501 := by norm_num
    rw [hkey, if_pos]
    right
    simp [OPUS_MAX_PACKET]

/-- Closed witness for the hypotheses of framed_read_length_check. -/
theorem framed_read_length_check_witness :
    ((0 : Nat) < 256 ∧ (1 : Nat) < 256) ∧
    framed_read [] 1500 = none :=
  ⟨⟨by decide, by decide⟩,
    (framed_read_length_check 0 1 [] 1500 (by decide) (by decide)).2.2.2.2.1⟩

/-! The egress codec volume stage of output_transport_thread, lines
313-324: snapshot (gain, mute), scale each Float32 sample by
gain * 32767, clamp to the Int16 range, and cast to int16_t.  Modelled
over exact rationals; the counterexample below uses inputs at which every
Float32 operation of the C code is exact. -/

/-- float gain = mute ? 0.0f : vol, lines 314-316 (and 388-390). -/
def effectiveGain (mute : Bool) (vol : ℚ) : ℚ :=
  if mute then 0 else vol

/-- Truncation toward zero: the semantics of the C cast (int16_t)s for an
in-range float s. -/
def castTruncInt (q : ℚ) : ℤ :=
  if 0 ≤ q then ⌊q⌋ else ⌈q⌉

/-- One sample of the Float32 to Int16 conversion with volume, lines
319-324: s = x * gain * 32767, clamp high, clamp low, cast. -/
def convertSample (gain x : ℚ) : ℤ :=
  let s := x * gain * 32767
  let s1 := if s > 32767 then (32767 : ℚ) else s
  let s2 := if s1 < -32768 then (-32768 : ℚ) else s1
  castTruncInt s2

/-- The whole buffer conversion of the loop on lines 319-324. -/
def convertBuffer (gain : ℚ) (pcm : List ℚ) : List ℤ :=
  pcm.map (convertSample gain)

/-- Modelled from the spec: s_i = clamp(round(x_i * g * 32767), -32768,
32767), with round to nearest. -/
def convertSampleSpec (gain x : ℚ) : ℤ :=
  max (-32768) (min 32767 (round (x * gain * 32767)))

lemma castTruncInt_bounds {y : ℚ} (h1 : -32768 ≤ y) (h2 : y ≤ 32767) :
    -32768 ≤ castTruncInt y ∧ castTruncInt y ≤ 32767 := by
  unfold castTruncInt
  split
  · rename_i hy
    constructor
    · exact le_trans (by norm_num) (Int.floor_nonneg.mpr hy)
    · have hfl : (⌊y⌋ : ℚ) ≤ 32767 := le_trans (Int.floor_le y) h2
      exact_mod_cast hfl
  · rename_i hy
    constructor
    · have hcl : (-32768 : ℚ) ≤ (⌈y⌉ : ℚ) := le_trans h1 (Int.le_ceil y)
      exact_mod_cast hcl
    · refine le_trans (show ⌈y⌉ ≤ (0 : ℤ) from Int.ceil_le.mpr (by push_cast; linarith))
        (by norm_num)

lemma convertSample_eq_clamp (g x : ℚ) :
    convertSample g x = max (-32768) (min 32767 (castTruncInt (x * g * 32767))) := by
  by_cases h1 : x * g * 32767 > 32767
  · have htr : castTruncInt (x * g * 32767) = ⌊x * g * 32767⌋ :=
      if_pos (le_trans (by norm_num) h1.le)
    have hfl : (32767 : ℤ) ≤ ⌊x * g * 32767⌋ := Int.le_floor.mpr (by push_cast; linarith)
    simp only [convertSample, if_pos h1]
    rw [if_neg (by norm_num)]
    have hc : castTruncInt (32767 : ℚ) = 32767 := by norm_num [castTruncInt]
    rw [hc, htr]
    omega
  · by_cases h2 : x * g * 32767 < -32768
    · have htr : castTruncInt (x * g * 32767) = ⌈x * g * 32767⌉ :=
        if_neg (not_le.mpr (by linarith))
      have hcl : ⌈x * g * 32767⌉ ≤ -32768 := Int.ceil_le.mpr (by push_cast; linarith)
      simp only [convertSample, if_neg h1, if_pos h2]
      have hc : castTruncInt (-32768 : ℚ) = -32768 := by
        rw [castTruncInt, if_neg (by norm_num),
          show ((-32768 : ℚ)) = ((-32768 : ℤ) : ℚ) by norm_num, Int.ceil_intCast]
      rw [hc, htr]
      omega
    · simp only [convertSample, if_neg h1, if_neg h2]
      have hb := castTruncInt_bounds (not_lt.mp h2) (not_lt.mp h1)
      omega

/-- C5 counterexample: at input sample 1/2 with gain 1 and mute clear
(all Float32 operations exact there), the code emits 16383 while the
claimed clamp(round(x * g * 32767)) is 16384: the C cast truncates toward
zero rather than rounding. -/
theorem convertSample_not_round :
    convertSample (effectiveGain false 1) (1 / 2) = 16383 ∧
    convertSampleSpec (effectiveGain false 1) (1 / 2) = 16384 ∧
    convertSample (effectiveGain false 1) (1 / 2) ≠
      convertSampleSpec (effectiveGain false 1) (1 / 2) := by
  refine ⟨?_, ?_, ?_⟩ <;>
    norm_num [convertSample, convertSampleSpec, effectiveGain, castTruncInt, round_eq]

/-- C5 amended: the emitted 16-bit sample is
clamp(trunc(x_i * g * 32767), -32768, 32767) with truncation toward zero
(the C float-to-int cast), where g = 0 if mute is set and g = gain
otherwise; likewise for every position of the converted buffer. -/
theorem convertSample_clamp_truncate (mute : Bool) (vol x : ℚ) :
    convertSample (effectiveGain mute vol) x =
      max (-32768) (min 32767 (castTruncInt (x * effectiveGain mute vol * 32767))) ∧
    (∀ (pcm : List ℚ) (i : Nat),
      (convertBuffer (effectiveGain mute vol) pcm).getD i 0 =
        max (-32768)
          (min 32767 (castTruncInt (pcm.getD i 0 * effectiveGain mute vol * 32767)))) ∧
    effectiveGain true vol = 0 ∧ effectiveGain false vol = vol := by
  refine ⟨convertSample_eq_clamp _ x, ?_, rfl, rfl⟩
  intro pcm i
  rcases Nat.lt_or_ge i pcm.length with hi | hi
  · have hmap : (convertBuffer (effectiveGain mute vol) pcm).getD i 0 =
        convertSample (effectiveGain mute vol) (pcm.getD i 0) := by
      rw [convertBuffer, List.getD_eq_getElem _ _ (by simpa using hi),
        List.getD_eq_getElem _ _ hi]
      simp
    rw [hmap, convertSample_eq_clamp]
  · have hz1 : (convertBuffer (effectiveGain mute vol) pcm).getD i 0 = 0 := by
      apply List.getD_eq_default
      simpa [convertBuffer] using hi
    have hz2 : pcm.getD i 0 = 0 := List.getD_eq_default _ _ hi
    rw [hz1, hz2]
    norm_num [castTruncInt]

end Bunghole
